import Mathlib

/-!
Verification development for the pdf-gen document-generation library.

This file gives a shallow embedding of the library's font-metrics model,
glyph-table encoder and text-flow layout engine, translated from the Rust
sources (`src/font.rs`, `src/layout/text.rs`), and proves or refutes the
specification's claims about them.

Modelling conventions:
* `f32` arithmetic is modelled by exact rational arithmetic (`ℚ`).  The
  constants appearing in the code (`1000.0`, `0.8`, ...) are taken at their
  exact rational values.
* Rust strings are modelled as `List Char`.
* Fallible lookups (`ttf_parser` queries) are modelled with `Option`.
  The rendering fallback chain `glyph → U+FFFD → '?'` panics in Rust when
  all three lookups fail; here a failed chain contributes a zero advance,
  which is only ever weaker than the panic for the safety facts proved
  below (all concrete fonts used in witnesses resolve every character).
* `while` loops whose termination is not structural are given an explicit
  fuel parameter; safety theorems quantify over all fuels, and concrete
  executions use a fuel large enough for the loop to finish.
-/

namespace PdfGen

/-- The portion of a parsed font face consulted by the library
(`owned_ttf_parser` face queries used in `font.rs` / `layout/text.rs`). -/
structure Face where
  unitsPerEm : ℕ
  ascender : ℤ
  descender : ℤ
  lineGap : ℤ
  glyphIndex : Char → Option ℕ
  glyphHorAdvance : ℕ → Option ℕ

/-- `size / units_per_em`, the font-unit → point scaling factor used
throughout `font.rs` and `layout/text.rs`. -/
def scalingOf (f : Face) (size : ℚ) : ℚ :=
  size / (f.unitsPerEm : ℚ)

/-- `Font::ascent` (src/font.rs): `scaling * ascender`. -/
def Face.ascent (f : Face) (size : ℚ) : ℚ :=
  scalingOf f size * (f.ascender : ℚ)

/-- `Font::descent` (src/font.rs): `scaling * descender` (usually negative). -/
def Face.descent (f : Face) (size : ℚ) : ℚ :=
  scalingOf f size * (f.descender : ℚ)

/-- `Font::leading` (src/font.rs): `scaling * line_gap`. -/
def Face.leading (f : Face) (size : ℚ) : ℚ :=
  scalingOf f size * (f.lineGap : ℚ)

/-- `Font::line_height` (src/font.rs): `leading + ascent - descent`, with all
three terms computed at the same scaling, exactly as in the source. -/
def Face.line_height (f : Face) (size : ℚ) : ℚ :=
  f.leading size + f.ascent size - f.descent size

/-- `baseline_offset` (src/layout/text.rs): `Pt(0.) - ascent`. -/
def baseline_offset (f : Face) (size : ℚ) : ℚ :=
  0 - f.ascent size

/-- `Font::glyph_id` (src/font.rs): plain cmap lookup, no fallback. -/
def Face.glyph_id (f : Face) (ch : Char) : Option ℕ :=
  f.glyphIndex ch

/-- `width_of_text` (src/layout/text.rs): sum of `scaling * advance` over the
characters whose plain `glyph_id` lookup succeeds; unresolved characters are
dropped by the `filter_map` and contribute nothing. -/
def width_of_text (text : List Char) (f : Face) (size : ℚ) : ℚ :=
  ((text.filterMap f.glyph_id).map
    (fun gid => scalingOf f size * (((f.glyphHorAdvance gid).getD 0 : ℕ) : ℚ))).sum

/-- The rendering fallback chain used when emitting (not measuring) text
(src/layout/text.rs `glyph_index(ch)` / U+FFFD / `'?'`).  Rust panics when
all three fail; that case is `none` here. -/
def fallbackGid (f : Face) (ch : Char) : Option ℕ :=
  match f.glyphIndex ch with
  | some gid => some gid
  | none =>
    match f.glyphIndex '�' with
    | some gid => some gid
    | none => f.glyphIndex '?'

/-- Horizontal advance used by the layout loops: the fallback glyph's
advance scaled by `size / units_per_em`, `unwrap_or_default` giving 0. -/
def hAdv (f : Face) (size : ℚ) (ch : Char) : ℚ :=
  match fallbackGid f ch with
  | some gid => scalingOf f size * (((f.glyphHorAdvance gid).getD 0 : ℕ) : ℚ)
  | none => 0

/-- Demonstration face of the spec's end-to-end scenario: 1000 units/em,
ascender 800, descender −200, line-gap 0. -/
def demoFace : Face :=
  ⟨1000, 800, -200, 0, fun _ => none, fun _ => none⟩

/-- Test face whose every character resolves to glyph `char + 1` with a
constant horizontal advance of 625 font units (10 pt at 16 pt size). -/
def testFace : Face :=
  ⟨1000, 800, -200, 0, fun ch => some (ch.toNat + 1), fun _ => some 625⟩

/-- Claim C7: ascent/descent/lineGap scale the font-unit metric by
`size / unitsPerEm`; `lineHeight = lineGap + ascent − descent`;
`baselineOffset = −ascent`; and on a font with 1000 units/em, ascender 800,
descender −200, line-gap 0, `baselineOffset(16pt) = −12.8pt` and
`lineHeight(16pt) = 16pt`. -/
theorem font_metric_queries (f : Face) (s : ℚ) :
    f.ascent s = s / (f.unitsPerEm : ℚ) * (f.ascender : ℚ) ∧
    f.descent s = s / (f.unitsPerEm : ℚ) * (f.descender : ℚ) ∧
    f.leading s = s / (f.unitsPerEm : ℚ) * (f.lineGap : ℚ) ∧
    f.line_height s = f.leading s + f.ascent s - f.descent s ∧
    baseline_offset f s = -(f.ascent s) ∧
    baseline_offset demoFace 16 = -(128/10) ∧
    demoFace.line_height 16 = 16 := by
  refine ⟨rfl, rfl, rfl, rfl, ?_, ?_, ?_⟩
  · simp [baseline_offset]
  · norm_num [baseline_offset, Face.ascent, scalingOf, demoFace]
  · norm_num [Face.line_height, Face.ascent, Face.descent, Face.leading,
      scalingOf, demoFace]

/-- Auxiliary: each summand of `width_of_text` is nonnegative for a
nonnegative size. -/
theorem width_of_text_nonneg (t : List Char) (f : Face) (s : ℚ) (hs : 0 ≤ s) :
    0 ≤ width_of_text t f s := by
  unfold width_of_text
  apply List.sum_nonneg
  intro q hq
  obtain ⟨gid, _, rfl⟩ := List.mem_map.mp hq
  have hscale : 0 ≤ scalingOf f s :=
    div_nonneg hs (by positivity)
  positivity

/-- Auxiliary: `width_of_text` distributes over list append. -/
theorem width_of_text_append (t1 t2 : List Char) (f : Face) (s : ℚ) :
    width_of_text (t1 ++ t2) f s = width_of_text t1 f s + width_of_text t2 f s := by
  unfold width_of_text
  rw [List.filterMap_append, List.map_append, List.sum_append]

/-- Auxiliary: restricting a text to its resolvable characters does not
change its `filterMap` through the glyph map. -/
theorem filterMap_filter_isSome (f : Face) (t : List Char) :
    (t.filter (fun ch => (f.glyph_id ch).isSome)).filterMap f.glyph_id
      = t.filterMap f.glyph_id := by
  induction t with
  | nil => rfl
  | cons ch rest ih =>
    by_cases h : (f.glyph_id ch).isSome
    · obtain ⟨gid, hgid⟩ := Option.isSome_iff_exists.mp h
      simp [List.filter_cons, List.filterMap_cons, h, hgid, ih]
    · have hnone : f.glyph_id ch = none := Option.not_isSome_iff_eq_none.mp h
      simp [List.filter_cons, List.filterMap_cons, h, hnone, ih]

/-- Claim C8: `width_of_text` skips unresolvable characters (it equals the
width of the text restricted to resolvable characters — no fallback
substitution), is nonnegative, and is additive under concatenation. -/
theorem width_of_text_algebra (f : Face) (s : ℚ) (t1 t2 : List Char)
    (hs : 0 ≤ s) :
    width_of_text (t1 ++ t2) f s = width_of_text t1 f s + width_of_text t2 f s ∧
    0 ≤ width_of_text t1 f s ∧
    width_of_text t1 f s
      = width_of_text (t1.filter (fun ch => (f.glyph_id ch).isSome)) f s := by
  refine ⟨width_of_text_append t1 t2 f s, width_of_text_nonneg t1 f s hs, ?_⟩
  unfold width_of_text
  rw [filterMap_filter_isSome]

/-- Witness for C8 at a concrete font, size and texts. -/
theorem width_of_text_algebra_witness :
    (0 : ℚ) ≤ 16 ∧
    (width_of_text (['a', 'b'] ++ ['c']) testFace 16
        = width_of_text ['a', 'b'] testFace 16 + width_of_text ['c'] testFace 16 ∧
      0 ≤ width_of_text ['a', 'b'] testFace 16 ∧
      width_of_text ['a', 'b'] testFace 16
        = width_of_text
            (['a', 'b'].filter (fun ch => (testFace.glyph_id ch).isSome))
            testFace 16) := by
  exact ⟨by norm_num, width_of_text_algebra testFace 16 ['a', 'b'] ['c'] (by norm_num)⟩

/-! ## Glyph table encoder (src/font.rs, `write_cid` / `write_to_unicode`) -/

/-- The default-width computation of `Font::write_cid` (src/font.rs lines
119–131).  The code builds a `HashMap<width, count>` over the advance widths
of all reachable glyphs and then takes `max_by_key(|(&sz, _)| sz)` — which
keys on the *width itself*, not the count — scaling the chosen width by
`1000 / unitsPerEm`, with `1000.0` as the fallback for an empty map.
The maximum over the map's (distinct) keys equals the maximum over the
multiset of widths, so this is `max(widths) * scaling`. -/
def default_width_code (widths : List ℕ) (scaling : ℚ) : ℚ :=
  match widths with
  | [] => 1000
  | w :: ws => ((ws.foldl max w : ℕ) : ℚ) * scaling

/-- Spec-side notion for C1: `w` is a mode (most frequent element) of the
width multiset. -/
def IsModeWidth (widths : List ℕ) (w : ℕ) : Prop :=
  w ∈ widths ∧ ∀ v ∈ widths, widths.count v ≤ widths.count w

instance (widths : List ℕ) (w : ℕ) : Decidable (IsModeWidth widths w) := by
  unfold IsModeWidth; infer_instance

/-- Claim C1 (code_bug evaluation): on a font whose reachable glyphs have
advance widths 500, 500, 500, 900 (units-per-em 1000, so scaling 1), the
code's default width is 900 — the *maximum* width — while the unique mode is
500; the comment in `write_cid` ("find the most popular width to use as the
default") and the spec both demand the mode. -/
theorem default_width_is_max_not_mode :
    default_width_code [500, 500, 500, 900] 1 = 900 ∧
    IsModeWidth [500, 500, 500, 900] 500 ∧
    (∀ w, IsModeWidth [500, 500, 500, 900] w → w = 500) ∧
    default_width_code [500, 500, 500, 900] 1 ≠ (500 : ℚ) * 1 := by
  refine ⟨by norm_num [default_width_code], by decide, ?_, by norm_num [default_width_code]⟩
  intro w hw
  obtain ⟨hmem, hcnt⟩ := hw
  have h500 := hcnt 500 (by decide)
  fin_cases hmem <;> revert h500 <;> decide

/-- The block-partitioning loop of `Font::write_to_unicode` (src/font.rs
lines 337–351): state is the emitted blocks, the current block and the
current high byte (initially 0).  A block is flushed whenever the incoming
glyph id's high byte (`id >> 8`, written `id / 256`) differs from the
running high byte or the current block already holds 100 entries; the final
block is appended only if nonempty. -/
def cmapBlocksAux : List (ℕ × Char) → List (List (ℕ × Char)) →
    List (ℕ × Char) → ℕ → List (List (ℕ × Char))
  | [], blocks, current, _ =>
    if current ≠ [] then blocks ++ [current] else blocks
  | (id, ch) :: rest, blocks, current, hb =>
    if id / 256 ≠ hb ∨ 100 ≤ current.length then
      cmapBlocksAux rest (blocks ++ [current]) [(id, ch)] (id / 256)
    else
      cmapBlocksAux rest blocks (current ++ [(id, ch)]) hb

/-- `write_to_unicode` block partition, over the id-sorted (glyph id, char)
list. -/
def cmap_blocks (ids : List (ℕ × Char)) : List (List (ℕ × Char)) :=
  cmapBlocksAux ids [] [] 0

/-- Unfolding equation for the empty-input case of `cmapBlocksAux`. -/
theorem cmapBlocksAux_nil (blocks : List (List (ℕ × Char)))
    (current : List (ℕ × Char)) (hb : ℕ) :
    cmapBlocksAux [] blocks current hb
      = if current ≠ [] then blocks ++ [current] else blocks := rfl

/-- Unfolding equation for the cons case of `cmapBlocksAux`. -/
theorem cmapBlocksAux_cons (id : ℕ) (ch : Char) (rest : List (ℕ × Char))
    (blocks : List (List (ℕ × Char))) (current : List (ℕ × Char)) (hb : ℕ) :
    cmapBlocksAux ((id, ch) :: rest) blocks current hb
      = if id / 256 ≠ hb ∨ 100 ≤ current.length then
          cmapBlocksAux rest (blocks ++ [current]) [(id, ch)] (id / 256)
        else
          cmapBlocksAux rest blocks (current ++ [(id, ch)]) hb := rfl

/-- Well-formedness of one emitted block: at most 100 entries, all sharing
one high byte. -/
def BlockOk (b : List (ℕ × Char)) : Prop :=
  b.length ≤ 100 ∧ ∀ p ∈ b, ∀ q ∈ b, p.1 / 256 = q.1 / 256

/-- Invariant of the partitioning loop: if all flushed blocks are ok, the
current block is within bounds and homogeneous at the running high byte,
then every block of the final result is ok. -/
theorem cmapBlocksAux_blockOk (ids : List (ℕ × Char)) :
    ∀ blocks current hb,
      (∀ b ∈ blocks, BlockOk b) → current.length ≤ 100 →
      (∀ p ∈ current, p.1 / 256 = hb) →
      ∀ b ∈ cmapBlocksAux ids blocks current hb, BlockOk b := by
  induction ids with
  | nil =>
    intro blocks current hb hblocks hlen hcur b hb_mem
    rw [cmapBlocksAux_nil] at hb_mem
    by_cases hc : current ≠ []
    · rw [if_pos hc] at hb_mem
      rcases List.mem_append.mp hb_mem with h | h
      · exact hblocks b h
      · rw [List.mem_singleton.mp h]
        refine ⟨hlen, fun p hp q hq => ?_⟩
        rw [hcur p hp, hcur q hq]
    · rw [if_neg hc] at hb_mem
      exact hblocks b hb_mem
  | cons head rest ih =>
    intro blocks current hb hblocks hlen hcur b hb_mem
    obtain ⟨id, ch⟩ := head
    rw [cmapBlocksAux_cons] at hb_mem
    by_cases hflush : id / 256 ≠ hb ∨ 100 ≤ current.length
    · rw [if_pos hflush] at hb_mem
      refine ih (blocks ++ [current]) [(id, ch)] (id / 256) ?_ (by simp) ?_ b hb_mem
      · intro b' hb'
        rcases List.mem_append.mp hb' with h | h
        · exact hblocks b' h
        · rw [List.mem_singleton.mp h]
          refine ⟨hlen, fun p hp q hq => ?_⟩
          rw [hcur p hp, hcur q hq]
      · intro p hp
        rw [List.mem_singleton.mp hp]
    · rw [if_neg hflush] at hb_mem
      push_neg at hflush
      obtain ⟨hhb, hlt⟩ := hflush
      refine ih blocks (current ++ [(id, ch)]) hb hblocks ?_ ?_ b hb_mem
      · rw [List.length_append, List.length_singleton]
        omega
      · intro p hp
        rcases List.mem_append.mp hp with h | h
        · exact hcur p h
        · rw [List.mem_singleton.mp h]
          exact hhb

/-- Claim C9: every block emitted by the ToUnicode partition holds at most
100 entries, and all glyph ids within one block share the same high byte
(`glyphId >> 8`). -/
theorem to_unicode_block_bound (ids : List (ℕ × Char)) :
    ∀ b ∈ cmap_blocks ids,
      b.length ≤ 100 ∧ ∀ p ∈ b, ∀ q ∈ b, p.1 / 256 = q.1 / 256 := by
  intro b hb
  exact cmapBlocksAux_blockOk ids [] [] 0 (by simp) (by simp) (by simp) b hb

/-- Witness for C9 at the concrete id list [(1, 'a'), (2, 'b')], whose
partition is the single block holding both entries. -/
theorem to_unicode_block_bound_witness :
    [((1 : ℕ), 'a'), (2, 'b')] ∈ cmap_blocks [(1, 'a'), (2, 'b')] ∧
    ([((1 : ℕ), 'a'), (2, 'b')].length ≤ 100 ∧
      ∀ p ∈ [((1 : ℕ), 'a'), (2, 'b')], ∀ q ∈ [((1 : ℕ), 'a'), (2, 'b')],
        p.1 / 256 = q.1 / 256) :=
  ⟨by decide, to_unicode_block_bound [(1, 'a'), (2, 'b')] _ (by decide)⟩

/-- Once the current block is nonempty, the loop only ever appends nonempty
blocks after the already-flushed ones. -/
theorem cmapBlocksAux_tail_nonempty (ids : List (ℕ × Char)) :
    ∀ blocks current hb, current ≠ [] →
      ∃ tl, cmapBlocksAux ids blocks current hb = blocks ++ tl ∧
        ∀ b ∈ tl, b ≠ [] := by
  induction ids with
  | nil =>
    intro blocks current hb hc
    refine ⟨[current], ?_, ?_⟩
    · rw [cmapBlocksAux_nil, if_pos hc]
    · intro b hbm
      rw [List.mem_singleton.mp hbm]
      exact hc
  | cons head rest ih =>
    intro blocks current hb hc
    obtain ⟨id, ch⟩ := head
    by_cases hflush : id / 256 ≠ hb ∨ 100 ≤ current.length
    · obtain ⟨tl, htl, hne⟩ :=
        ih (blocks ++ [current]) [(id, ch)] (id / 256) (by simp)
      refine ⟨current :: tl, ?_, ?_⟩
      · rw [cmapBlocksAux_cons, if_pos hflush, htl, List.append_assoc]
        rfl
      · intro b hbm
        rcases List.mem_cons.mp hbm with h | h
        · rw [h]; exact hc
        · exact hne b h
    · obtain ⟨tl, htl, hne⟩ :=
        ih blocks (current ++ [(id, ch)]) hb (by simp)
      refine ⟨tl, ?_, hne⟩
      rw [cmapBlocksAux_cons, if_neg hflush]
      exact htl

/-- Claim C10: if the smallest reachable glyph id has a non-zero high byte
(`id ≥ 256`), the ToUnicode partition starts with one empty block followed
by nonempty blocks only; if the smallest id is below 256, no block is ever
empty. -/
theorem to_unicode_leading_empty_block (h0 : ℕ × Char) (rest : List (ℕ × Char))
    (_hmin : ∀ p ∈ rest, h0.1 ≤ p.1) :
    (256 ≤ h0.1 →
      ∃ tl, cmap_blocks (h0 :: rest) = [] :: tl ∧ ∀ b ∈ tl, b ≠ []) ∧
    (h0.1 < 256 → ∀ b ∈ cmap_blocks (h0 :: rest), b ≠ []) := by
  clear _hmin
  obtain ⟨id, ch⟩ := h0
  constructor
  · intro hge
    have hdiv : id / 256 ≠ 0 := by
      intro h
      rw [Nat.div_eq_zero_iff (by norm_num : 0 < 256)] at h
      simp only at hge
      omega
    obtain ⟨tl, htl, hne⟩ :=
      cmapBlocksAux_tail_nonempty rest [[]] [(id, ch)] (id / 256) (by simp)
    refine ⟨tl, ?_, hne⟩
    show cmapBlocksAux ((id, ch) :: rest) [] [] 0 = [] :: tl
    rw [cmapBlocksAux_cons, if_pos (Or.inl (by simpa using hdiv))]
    rw [List.nil_append]
    rw [htl]
    rfl
  · intro hlt b hbm
    simp only at hlt
    have hdiv : id / 256 = 0 := Nat.div_eq_of_lt hlt
    obtain ⟨tl, htl, hne⟩ :=
      cmapBlocksAux_tail_nonempty rest [] [(id, ch)] 0 (by simp)
    have hred : cmap_blocks ((id, ch) :: rest) = cmapBlocksAux rest [] [(id, ch)] 0 := by
      show cmapBlocksAux ((id, ch) :: rest) [] [] 0 = _
      rw [cmapBlocksAux_cons, if_neg ?_, List.nil_append]
      rw [hdiv]
      simp
    rw [hred, htl, List.nil_append] at hbm
    exact hne b hbm

/-- Witness for C10 at the concrete id list [(300, 'a'), (301, 'b')]: the
smallest id 300 has high byte 1, and the partition is the empty block
followed by one block holding both entries. -/
theorem to_unicode_leading_empty_block_witness :
    (∀ p ∈ [((301 : ℕ), 'b')], (300 : ℕ) ≤ p.1) ∧ 256 ≤ (300 : ℕ) ∧
    (∃ tl, cmap_blocks [(300, 'a'), (301, 'b')] = [] :: tl ∧ ∀ b ∈ tl, b ≠ []) := by
  refine ⟨by decide, by norm_num, ?_⟩
  exact (to_unicode_leading_empty_block (300, 'a') [(301, 'b')]
    (by decide)).1 (by norm_num)

/-! ## Shared layout data model (src/page.rs, src/rect.rs) -/

/-- `Rect` (src/rect.rs): two opposite corners, `(x1, y1)` lower-left and
`(x2, y2)` upper-right. -/
structure Rect where
  x1 : ℚ
  y1 : ℚ
  x2 : ℚ
  y2 : ℚ
deriving DecidableEq

/-- Colours are opaque to the layout engine; an index stands in for the
RGB/CMYK value. `BLACK` is colour 0. -/
abbrev Colour := ℕ

/-- `SpanFont` (src/page.rs): a font arena index plus a point size. -/
structure SpanFont where
  id : ℕ
  size : ℚ
deriving DecidableEq

/-- `SpanLayout` (src/page.rs): one positioned, single-font, single-colour
text run. -/
structure SpanLayout where
  text : List Char
  font : SpanFont
  colour : Colour
  coords : ℚ × ℚ
deriving DecidableEq

/-! ## Spring (justified) layout (src/layout/text.rs, `layout_text_spring`) -/

/-- A word of the spring algorithm: contiguous non-whitespace text plus its
precomputed display width. -/
structure Word where
  word : List Char
  width : ℚ
deriving DecidableEq

/-- `str::split_whitespace`, accumulator style: splits on whitespace and
drops empty fragments.  (Rust splits on Unicode `White_Space`; `Char.isWhitespace`
covers the ASCII subset exercised here.) -/
def splitWsAux : List Char → List Char → List (List Char)
  | [], acc => if acc = [] then [] else [acc.reverse]
  | c :: rest, acc =>
    if c.isWhitespace then
      if acc = [] then splitWsAux rest [] else acc.reverse :: splitWsAux rest []
    else splitWsAux rest (c :: acc)

/-- The words of the input text, in order. -/
def split_whitespace (s : List Char) : List (List Char) :=
  splitWsAux s []

/-- A finalized line as recorded at the emission step of
`layout_text_spring` (src/layout/text.rs lines 606–617): the accepted words,
their summed width, and the inter-word spacing computation
`(max_width - words_width) / ((line.len() - 1) as f32)` together with its
divisor.  In Rust the division is `f32` (yielding ±∞ when the divisor is
zero); here it is `ℚ` division, and theorems never rely on the quotient's
value when `divisor = 0`. -/
structure LineRec where
  words : List Word
  wordsWidth : ℚ
  divisor : ℚ
  spacing : ℚ
deriving DecidableEq

/-- One iteration of the `'line` loop (src/layout/text.rs lines 575–604).
`Sum.inr (line, wordsWidth, rest)` is `break 'line`; `Sum.inl` continues
with the updated state.  Note the overflow-without-squish arm pushes the
word back **without** breaking — it continues the loop with the state it
started from. -/
def lineStep (spaceWidth maxWidth : ℚ) :
    List Word × List Word × ℚ →
    (List Word × List Word × ℚ) ⊕ (List Word × ℚ × List Word)
  | (wordsQ, line, ww) =>
    match wordsQ with
    | [] => Sum.inr (line, ww, [])
    | w :: rest =>
      let line2 := line ++ [w]
      let ww2 := ww + w.width
      let spaces := spaceWidth * ((line2.length - 1 : ℕ) : ℚ)
      if maxWidth ≤ ww2 + spaces then
        if ww2 + spaces * (8 / 10) ≤ maxWidth then Sum.inr (line2, ww2, rest)
        else Sum.inl (w :: rest, line, ww)
      else Sum.inl (rest, line2, ww2)

/-- The `'line` loop, fuelled; `none` means the loop had not exited after
`fuel` iterations. -/
def lineLoop (spaceWidth maxWidth : ℚ) :
    ℕ → List Word × List Word × ℚ → Option (List Word × ℚ × List Word)
  | 0, _ => none
  | fuel + 1, st =>
    match lineStep spaceWidth maxWidth st with
    | Sum.inr res => some res
    | Sum.inl st2 => lineLoop spaceWidth maxWidth fuel st2

/-- Emission of one finalized line (src/layout/text.rs lines 606–617): one
span per word starting at `bounding_box.x1`, each next `x` advanced by
`word.width + spacing`. -/
def emitWords (fontId : ℕ) (size spacing y : ℚ) : ℚ → List Word → List SpanLayout
  | _, [] => []
  | x, w :: rest =>
    ⟨w.word, ⟨fontId, size⟩, 0, (x, y)⟩ :: emitWords fontId size spacing y (x + w.width + spacing) rest

/-- The spacing computation and span emission for one nonempty finalized
line, also recording the `LineRec`. -/
def finalizeLine (fontId : ℕ) (size x1 maxWidth y : ℚ) (line : List Word)
    (ww : ℚ) : List SpanLayout × LineRec :=
  let divisor : ℚ := ((line.length - 1 : ℕ) : ℚ)
  let spacing : ℚ := (maxWidth - ww) / divisor
  (emitWords fontId size spacing y x1 line, ⟨line, ww, divisor, spacing⟩)

/-- The `'layout` loop of `layout_text_spring` (src/layout/text.rs lines
572–623), fuelled: build a line with the `'line` loop, emit it if nonempty
and advance `y` by the (negative) baseline offset, otherwise stop. -/
def springLoop (f : Face) (fontId : ℕ) (size spaceWidth x1 maxWidth : ℚ) :
    ℕ → List Word → ℚ → List SpanLayout → List LineRec →
    Option (List SpanLayout × List LineRec)
  | 0, _, _, _, _ => none
  | fuel + 1, wordsQ, y, outSpans, outLines =>
    match lineLoop spaceWidth maxWidth (fuel + 1) (wordsQ, [], 0) with
    | none => none
    | some (line, ww, rest) =>
      if line ≠ [] then
        let fl := finalizeLine fontId size x1 maxWidth y line ww
        springLoop f fontId size spaceWidth x1 maxWidth fuel rest
          (y + baseline_offset f size) (outSpans ++ fl.1) (outLines ++ [fl.2])
      else some (outSpans, outLines)

/-- `layout_text_spring` (src/layout/text.rs): split the text into measured
words and run the justified layout inside the bounding box.  `none` means
the fuel was exhausted before the loops terminated. -/
def layout_text_spring (f : Face) (fontId : ℕ) (size : ℚ) (text : List Char)
    (bb : Rect) (fuel : ℕ) : Option (List SpanLayout × List LineRec) :=
  let wordsQ := (split_whitespace text).map (fun w => Word.mk w (width_of_text w f size))
  springLoop f fontId size (width_of_text [' '] f size) bb.x1 (bb.x2 - bb.x1)
    fuel wordsQ (bb.y2 + baseline_offset f size) [] []

/-- Bounding box used by the spring counterexamples: width 100. -/
def springBB : Rect := ⟨0, 0, 100, 50⟩

unseal Rat.add Rat.sub Rat.mul Rat.inv Rat.ofScientific in
/-- Claim C2 (counterexample): laying out the single word "hi" (width 20 in
a 100-wide box) finalizes a line with exactly one word, and that line's
spacing term **is** computed, with divisor `wordCount − 1 = 0` — refuting
"for every finalized line with exactly 1 word no spacing term is computed,
so division by zero never occurs". -/
theorem spring_one_word_line_divides_by_zero :
    ∃ spans rec,
      layout_text_spring testFace 0 16 ['h', 'i'] springBB 5 = some (spans, [rec]) ∧
      rec.words.length = 1 ∧ rec.divisor = 0 := by
  refine ⟨[⟨['h', 'i'], ⟨0, 16⟩, 0, (0, 186/5)⟩],
    ⟨[⟨['h', 'i'], 20⟩], 20, 0, 0⟩, ?_, rfl, rfl⟩
  decide

/-- The per-line record invariant actually maintained by `springLoop`:
lines are finalized nonempty, the recorded divisor is `wordCount − 1`, and
for 2 or more words the recorded spacing is the claim's formula. -/
def LineRecOk (maxWidth : ℚ) (rec : LineRec) : Prop :=
  rec.words ≠ [] ∧
  rec.divisor = ((rec.words.length - 1 : ℕ) : ℚ) ∧
  (2 ≤ rec.words.length →
    rec.spacing = (maxWidth - rec.wordsWidth) / ((rec.words.length - 1 : ℕ) : ℚ))

/-- Induction step for the spring loop's line-record invariant. -/
theorem springLoop_lineRecOk (f : Face) (fontId : ℕ) (size spaceWidth x1 maxWidth : ℚ) :
    ∀ fuel wordsQ y outSpans outLines out,
      (∀ rec ∈ outLines, LineRecOk maxWidth rec) →
      springLoop f fontId size spaceWidth x1 maxWidth fuel wordsQ y outSpans outLines
        = some out →
      ∀ rec ∈ out.2, LineRecOk maxWidth rec := by
  intro fuel
  induction fuel with
  | zero => intro wordsQ y os ol out _ h; exact absurd h (by simp [springLoop])
  | succ n ih =>
    intro wordsQ y os ol out hol h
    rw [springLoop] at h
    rcases hll : lineLoop spaceWidth maxWidth (n + 1) (wordsQ, [], 0) with _ | ⟨line, ww, rest⟩
    · rw [hll] at h; exact absurd h (by simp)
    · rw [hll] at h
      dsimp only at h
      by_cases hline : line ≠ []
      · rw [if_pos hline] at h
        refine ih rest (y + baseline_offset f size) _ _ out ?_ h
        intro rec hrec
        rcases List.mem_append.mp hrec with hm | hm
        · exact hol rec hm
        · rw [List.mem_singleton.mp hm]
          exact ⟨hline, rfl, fun _ => rfl⟩
      · rw [if_neg hline] at h
        rw [← Option.some_inj.mp h]
        exact hol

/-- Claim C2 (amended): every line finalized by the justified layout is
nonempty and carries the spacing computation with divisor `wordCount − 1`;
for a line of at least two words the spacing equals
`(maxWidth − wordsWidth) / (wordCount − 1)`.  One-word lines also reach the
spacing computation (then with divisor zero), contrary to the original
claim. -/
theorem spring_spacing_formula (f : Face) (fontId : ℕ) (size : ℚ)
    (text : List Char) (bb : Rect) (fuel : ℕ)
    (out : List SpanLayout × List LineRec)
    (h : layout_text_spring f fontId size text bb fuel = some out) :
    ∀ rec ∈ out.2,
      rec.words ≠ [] ∧
      rec.divisor = ((rec.words.length - 1 : ℕ) : ℚ) ∧
      (2 ≤ rec.words.length →
        rec.spacing
          = (bb.x2 - bb.x1 - rec.wordsWidth) / ((rec.words.length - 1 : ℕ) : ℚ)) := by
  exact springLoop_lineRecOk f fontId size (width_of_text [' '] f size) bb.x1
    (bb.x2 - bb.x1) fuel _ _ [] [] out (by simp) h

unseal Rat.add Rat.sub Rat.mul Rat.inv Rat.ofScientific in
/-- Witness for the amended C2 on the two-word text "aa bb": the single
finalized line has two words, width 40, divisor 1 and spacing 60. -/
theorem spring_spacing_formula_witness :
    layout_text_spring testFace 0 16 ['a', 'a', ' ', 'b', 'b'] springBB 5
      = some ([⟨['a', 'a'], ⟨0, 16⟩, 0, (0, 186/5)⟩,
               ⟨['b', 'b'], ⟨0, 16⟩, 0, (80, 186/5)⟩],
              [⟨[⟨['a', 'a'], 20⟩, ⟨['b', 'b'], 20⟩], 40, 1, 60⟩]) ∧
    ∀ rec ∈ ([⟨[⟨['a', 'a'], 20⟩, ⟨['b', 'b'], 20⟩], 40, 1, 60⟩] : List LineRec),
      rec.words ≠ [] ∧
      rec.divisor = ((rec.words.length - 1 : ℕ) : ℚ) ∧
      (2 ≤ rec.words.length →
        rec.spacing
          = (springBB.x2 - springBB.x1 - rec.wordsWidth)
              / ((rec.words.length - 1 : ℕ) : ℚ)) := by
  constructor
  · decide
  · exact spring_spacing_formula testFace 0 16 ['a', 'a', ' ', 'b', 'b'] springBB 5
      ([⟨['a', 'a'], ⟨0, 16⟩, 0, (0, 186/5)⟩,
        ⟨['b', 'b'], ⟨0, 16⟩, 0, (80, 186/5)⟩],
       [⟨[⟨['a', 'a'], 20⟩, ⟨['b', 'b'], 20⟩], 40, 1, 60⟩]) (by decide)

/-- If the `'line` loop's step maps a state to itself, the loop never
exits, whatever the fuel. -/
theorem lineLoop_none_of_selfloop (spaceWidth maxWidth : ℚ)
    (st : List Word × List Word × ℚ)
    (h : lineStep spaceWidth maxWidth st = Sum.inl st) :
    ∀ n, lineLoop spaceWidth maxWidth n st = none := by
  intro n
  induction n with
  | zero => rfl
  | succ n ih =>
    rw [lineLoop, h]
    exact ih

/-- If the first line's loop runs out of fuel, the whole spring layout
does. -/
theorem springLoop_none_of_lineLoop_none (f : Face) (fontId : ℕ)
    (size spaceWidth x1 maxWidth : ℚ) (n : ℕ) (wordsQ : List Word) (y : ℚ)
    (outSpans : List SpanLayout) (outLines : List LineRec)
    (h : lineLoop spaceWidth maxWidth (n + 1) (wordsQ, [], 0) = none) :
    springLoop f fontId size spaceWidth x1 maxWidth (n + 1) wordsQ y outSpans outLines
      = none := by
  rw [springLoop, h]

unseal Rat.add Rat.sub Rat.mul Rat.inv Rat.ofScientific in
/-- Claim C3 (code_bug evaluation): on a single word of 11 characters
(display width 110) in a 100-wide box, the `'line` loop pushes the word
back without breaking and revisits the identical state, so
`layout_text_spring` never returns, for any amount of fuel — refuting
termination on word-queue exhaustion. -/
theorem spring_single_wide_word_loops_forever :
    ∀ fuel,
      layout_text_spring testFace 0 16
        ['a', 'a', 'a', 'a', 'a', 'a', 'a', 'a', 'a', 'a', 'a'] springBB fuel
        = none := by
  intro fuel
  cases fuel with
  | zero => rfl
  | succ n =>
    refine springLoop_none_of_lineLoop_none _ _ _ _ _ _ n _ _ _ _ ?_
    refine lineLoop_none_of_selfloop _ _ _ ?_ (n + 1)
    decide

/-! ## Naive (character) layout (src/layout/text.rs, `layout_text_naive`) -/

/-- One queued chunk: text, colour, font+size (the `(String, Colour,
SpanFont)` triple of the layout queue). -/
abbrev Chunk := List Char × Colour × SpanFont

/-- `span.replace('\t', &" ".repeat(TABSIZE))` with `TABSIZE = 4`. -/
def expandTabs (s : List Char) : List Char :=
  s.flatMap (fun c => if c = '\t' then [' ', ' ', ' ', ' '] else [c])

/-- `span.replace("\r\n", "\n")`: left-to-right, non-overlapping. -/
def normalizeCRLF : List Char → List Char
  | '\r' :: '\n' :: rest => '\n' :: normalizeCRLF rest
  | c :: rest => c :: normalizeCRLF rest
  | [] => []

/-- `span.replace('\r', "\n")`. -/
def mapCR (s : List Char) : List Char :=
  s.map (fun c => if c = '\r' then '\n' else c)

/-- Per-chunk text preprocessing: tabs to four spaces, then `\r\n` → `\n`,
then `\r` → `\n` (src/layout/text.rs lines 77–80). -/
def preprocess (s : List Char) : List Char :=
  mapCR (normalizeCRLF (expandTabs s))

/-- Sum of the layout advances (with rendering fallback) of a text: the
horizontal distance the naive/natural cursor moves while emitting it. -/
def advSum (f : Face) (size : ℚ) (text : List Char) : ℚ :=
  (text.map (hAdv f size)).sum

/-- Result of a layout call: the spans accumulated so far, the final queue,
the stopping coordinate, and whether the Rust function returned (`false`
means the fuel ran out first). -/
structure LayoutResult where
  spans : List SpanLayout
  queue : List Chunk
  x : ℚ
  y : ℚ
  finished : Bool
deriving DecidableEq

/-- Outcome of the naive `'chars` loop over one chunk. -/
inductive NaiveStep where
  | finished (x y : ℚ) (spans : List SpanLayout)
  | brokeLine (x y : ℚ) (spans : List SpanLayout) (ins : List Chunk)
  | exitAll (x y : ℚ) (spans : List SpanLayout) (ins : List Chunk)

/-- The `'chars` loop of `layout_text_naive` (src/layout/text.rs lines
92–209), one chunk at a time.  `finished`/`brokeLine` both include the
unconditional `spans.push(current_span)` of line 211 resp. line 169;
the newline-with-vertical-overflow arm inserts **both** `skip(ci)` and the
previously inserted `skip(ci + 1)` remainders (lines 95–131), and the
horizontal-overflow-with-vertical-overflow arm pushes `current_span` twice
(lines 169 and 194), exactly as the source does. -/
def naiveChars (doc : ℕ → Face) (startX wrapOffset : ℚ) (bb : Rect)
    (colour : Colour) (font : SpanFont) (descent lineGap : ℚ) :
    List Char → ℚ → ℚ → SpanLayout → List SpanLayout → NaiveStep
  | [], x, y, cur, spans => .finished x y (spans ++ [cur])
  | ch :: rest, x, y, cur, spans =>
    if ch = '\n' then
      let ins1 : List Chunk := if rest = [] then [] else [(rest, colour, font)]
      let x2 := startX
      let y2 := y - lineGap
      if y2 < bb.y1 + descent then
        .exitAll x2 y2 (spans ++ [cur]) ((ch :: rest, colour, font) :: ins1)
      else
        .brokeLine x2 y2 (spans ++ [cur]) ins1
    else
      let adv := hAdv (doc font.id) font.size ch
      if bb.x2 ≤ x + adv then
        let x2 := startX + wrapOffset
        let y2 := y - lineGap
        if y2 < bb.y1 + descent then
          .exitAll x2 y2 (spans ++ [cur, cur]) [(ch :: rest, colour, font)]
        else
          naiveChars doc startX wrapOffset bb colour font descent lineGap rest
            (x2 + adv) y2 ⟨[ch], font, colour, (x2, y2)⟩ (spans ++ [cur])
      else
        naiveChars doc startX wrapOffset bb colour font descent lineGap rest
          (x + adv) y ⟨cur.text ++ [ch], font, colour, cur.coords⟩ spans

/-- The `'inputspans` loop of `layout_text_naive` (src/layout/text.rs lines
63–212), fuelled. -/
def naiveLoop (doc : ℕ → Face) (startX wrapOffset : ℚ) (bb : Rect) :
    ℕ → ℚ → ℚ → List SpanLayout → List Chunk → LayoutResult
  | 0, x, y, spans, queue => ⟨spans, queue, x, y, false⟩
  | fuel + 1, x, y, spans, queue =>
    match queue with
    | [] => ⟨spans, [], x, y, true⟩
    | (s, colour, font) :: rest =>
      let f := doc font.id
      let descent := f.descent font.size
      let lineGap := f.line_height font.size
      match naiveChars doc startX wrapOffset bb colour font descent lineGap
          (preprocess s) x y ⟨[], font, colour, (x, y)⟩ spans with
      | .finished x2 y2 spans2 =>
        naiveLoop doc startX wrapOffset bb fuel x2 y2 spans2 rest
      | .brokeLine x2 y2 spans2 ins =>
        naiveLoop doc startX wrapOffset bb fuel x2 y2 spans2 (ins ++ rest)
      | .exitAll x2 y2 spans2 ins => ⟨spans2, ins ++ rest, x2, y2, true⟩

/-- `layout_text_naive` (src/layout/text.rs): consume the queue, returning
the emitted spans (the page receives those with nonempty text), the
leftover queue and the stopping coordinate. -/
def layout_text_naive (doc : ℕ → Face) (start : ℚ × ℚ) (queue : List Chunk)
    (wrapOffset : ℚ) (bb : Rect) (fuel : ℕ) : LayoutResult :=
  naiveLoop doc start.1 wrapOffset bb fuel start.1 start.2 [] queue

/-- Document with `testFace` at every index. -/
def doc0 : ℕ → Face := fun _ => testFace

/-- Bounding box for the naive counterexamples. -/
def naiveBB : Rect := ⟨0, 0, 100, 50⟩

unseal Rat.add Rat.sub Rat.mul Rat.inv Rat.ofScientific in
/-- Claim C6 (code_bug evaluation): laying out the single chunk "a\nb"
(char width 10) from start `(0, 10)` in a box with bottom 0 (descent −3.2,
line height 16) hits the newline at `y = 10`, moves to `y = −6 < −3.2`, and
exits — leaving the queue `["\nb", "b"]`: the not-yet-consumed text "b" has
been re-inserted **twice** (once as `skip(ci)` with the newline, once as
`skip(ci+1)`), so the queue does not hold exactly the text that did not
fit. -/
theorem naive_newline_overflow_duplicates_leftover :
    layout_text_naive doc0 (0, 10) [(['a', '\n', 'b'], 0, ⟨0, 16⟩)] 0 naiveBB 5
      = ⟨[⟨['a'], ⟨0, 16⟩, 0, (0, 10)⟩],
         [(['\n', 'b'], 0, ⟨0, 16⟩), (['b'], 0, ⟨0, 16⟩)],
         0, -6, true⟩ := by
  decide

unseal Rat.add Rat.sub Rat.mul Rat.inv Rat.ofScientific in
/-- Claim C5 (counterexample): the naive layout called with a start
coordinate below the bounding box emits the run "ab" at `y = −100`, far
below `boundingBox.bottom + descent = −3.2` — refuting the unconditional
no-overflow invariant. -/
theorem naive_emits_run_below_box :
    ∃ s ∈ (layout_text_naive doc0 (0, -100) [(['a', 'b'], 0, ⟨0, 16⟩)] 0
        naiveBB 5).spans.filter (fun t => t.text ≠ []),
      s.coords.2 < naiveBB.y1 + testFace.descent 16 := by
  refine ⟨⟨['a', 'b'], ⟨0, 16⟩, 0, (0, -100)⟩, ?_, ?_⟩
  · decide
  · show (-100 : ℚ) < 0 + testFace.descent 16
    norm_num [Face.descent, scalingOf, testFace]

/-- The layout advance of a character is nonnegative at a nonnegative font
size. -/
theorem hAdv_nonneg (f : Face) (size : ℚ) (ch : Char) (hs : 0 ≤ size) :
    0 ≤ hAdv f size ch := by
  unfold hAdv
  rcases fallbackGid f ch with _ | gid
  · exact le_refl 0
  · exact mul_nonneg (div_nonneg hs (Nat.cast_nonneg _)) (Nat.cast_nonneg _)

/-- `advSum` of an empty text is zero. -/
theorem advSum_nil (f : Face) (size : ℚ) : advSum f size [] = 0 := rfl

/-- `advSum` over a snoc. -/
theorem advSum_snoc (f : Face) (size : ℚ) (t : List Char) (ch : Char) :
    advSum f size (t ++ [ch]) = advSum f size t + hAdv f size ch := by
  unfold advSum
  rw [List.map_append, List.sum_append]
  simp

/-- The measured width of one character is at most its layout advance: when
the plain glyph lookup succeeds the two agree, and otherwise the measured
contribution is zero while the fallback advance is nonnegative. -/
theorem width_of_text_cons_le (f : Face) (size : ℚ) (ch : Char) (t : List Char)
    (hs : 0 ≤ size) :
    width_of_text (ch :: t) f size ≤ hAdv f size ch + width_of_text t f size := by
  have key : width_of_text (ch :: t) f size
      = (match f.glyphIndex ch with
         | some gid => scalingOf f size * (((f.glyphHorAdvance gid).getD 0 : ℕ) : ℚ)
         | none => 0) + width_of_text t f size := by
    unfold width_of_text Face.glyph_id
    rcases hg : f.glyphIndex ch with _ | gid
    · simp [List.filterMap_cons, hg]
    · simp [List.filterMap_cons, hg]
  rw [key]
  unfold hAdv fallbackGid
  rcases hg : f.glyphIndex ch with _ | gid
  · simp only [hg]
    rcases h2 : f.glyphIndex '�' with _ | g2
    · simp only [h2]
      rcases h3 : f.glyphIndex '?' with _ | g3
      · simp [h3]
      · simp only [h3]
        have hnn : (0 : ℚ) ≤ scalingOf f size * (((f.glyphHorAdvance g3).getD 0 : ℕ) : ℚ) :=
          mul_nonneg (div_nonneg hs (Nat.cast_nonneg _)) (Nat.cast_nonneg _)
        exact add_le_add_right hnn (width_of_text t f size)
    · simp only [h2]
      have hnn : (0 : ℚ) ≤ scalingOf f size * (((f.glyphHorAdvance g2).getD 0 : ℕ) : ℚ) :=
        mul_nonneg (div_nonneg hs (Nat.cast_nonneg _)) (Nat.cast_nonneg _)
      exact add_le_add_right hnn (width_of_text t f size)
  · simp [hg]

/-- The measured width of a text never exceeds the summed layout advance. -/
theorem width_of_text_le_advSum (f : Face) (size : ℚ) (t : List Char)
    (hs : 0 ≤ size) :
    width_of_text t f size ≤ advSum f size t := by
  induction t with
  | nil => simp [width_of_text, advSum]
  | cons ch rest ih =>
    have h1 := width_of_text_cons_le f size ch rest hs
    have h2 : advSum f size (ch :: rest) = hAdv f size ch + advSum f size rest := by
      unfold advSum
      simp
    rw [h2]
    linarith

/-- Prefixes measure at most as wide as the full text. -/
theorem width_of_text_take_le (f : Face) (size : ℚ) (t : List Char) (k : ℕ)
    (hs : 0 ≤ size) :
    width_of_text (t.take k) f size ≤ width_of_text t f size := by
  conv_rhs => rw [← List.take_append_drop k t]
  rw [width_of_text_append]
  have := width_of_text_nonneg (t.drop k) f size hs
  linarith

/-- The no-overflow property claimed for one emitted run: its right edge
stays inside the box and its baseline stays above `bottom + descent`. -/
def GoodSpan (f : Face) (size descent : ℚ) (bb : Rect) (s : SpanLayout) : Prop :=
  s.coords.1 + width_of_text s.text f size < bb.x2 ∧ bb.y1 + descent ≤ s.coords.2

/-- A span whose accumulated advance reaches the cursor, with the cursor
inside the box, satisfies the no-overflow property. -/
theorem goodSpan_of_cursor (f : Face) (size descent : ℚ) (bb : Rect)
    (s : SpanLayout) (x : ℚ) (hs : 0 ≤ size)
    (hx : s.coords.1 + advSum f size s.text = x) (hlt : x < bb.x2)
    (hy : bb.y1 + descent ≤ s.coords.2) :
    GoodSpan f size descent bb s := by
  refine ⟨?_, hy⟩
  have := width_of_text_le_advSum f size s.text hs
  linarith

/-- Outcome predicate for the naive `'chars` loop: all produced spans are
good; when the loop continues to another chunk the cursor is still inside
the box, and any re-inserted chunk carries the processed chunk's font. -/
def NaiveStepOk (f : Face) (size descent : ℚ) (bb : Rect) (font : SpanFont) :
    NaiveStep → Prop
  | .finished x y spans =>
    (∀ s ∈ spans, GoodSpan f size descent bb s) ∧ x < bb.x2 ∧ bb.y1 + descent ≤ y
  | .brokeLine x y spans ins =>
    (∀ s ∈ spans, GoodSpan f size descent bb s) ∧ x < bb.x2 ∧ bb.y1 + descent ≤ y ∧
    ∀ c ∈ ins, c.2.2 = font
  | .exitAll _ _ spans _ => ∀ s ∈ spans, GoodSpan f size descent bb s

/-- Invariant of the naive `'chars` loop: starting from good spans, a
current span whose advance reaches the in-box cursor, and a baseline above
the bottom threshold, every outcome is good — provided the font size is
nonnegative and every character's advance fits on a fresh line. -/
theorem naiveChars_ok (doc : ℕ → Face) (startX wrapOffset : ℚ) (bb : Rect)
    (colour : Colour) (font : SpanFont) (descent lineGap : ℚ)
    (hs : 0 ≤ font.size)
    (hfit : ∀ ch, startX + wrapOffset + hAdv (doc font.id) font.size ch < bb.x2 ∧
                  startX + hAdv (doc font.id) font.size ch < bb.x2) :
    ∀ chars x y cur spans,
      (∀ s ∈ spans, GoodSpan (doc font.id) font.size descent bb s) →
      cur.coords.1 + advSum (doc font.id) font.size cur.text = x →
      x < bb.x2 → bb.y1 + descent ≤ y → bb.y1 + descent ≤ cur.coords.2 →
      NaiveStepOk (doc font.id) font.size descent bb font
        (naiveChars doc startX wrapOffset bb colour font descent lineGap
          chars x y cur spans) := by
  have hsx : startX < bb.x2 := by
    have h1 := (hfit 'a').2
    have h2 := hAdv_nonneg (doc font.id) font.size 'a' hs
    linarith
  intro chars
  induction chars with
  | nil =>
    intro x y cur spans hsp hcur hx hy hcy
    refine ⟨?_, hx, hy⟩
    intro s hsm
    rcases List.mem_append.mp hsm with h | h
    · exact hsp s h
    · rw [List.mem_singleton.mp h]
      exact goodSpan_of_cursor _ _ _ _ _ _ hs hcur hx hcy
  | cons ch rest ih =>
    intro x y cur spans hsp hcur hx hy hcy
    rw [naiveChars]
    by_cases hnl : ch = '\n'
    · rw [if_pos hnl]
      dsimp only
      have hgoods : ∀ s ∈ spans ++ [cur], GoodSpan (doc font.id) font.size descent bb s := by
        intro s hsm
        rcases List.mem_append.mp hsm with h | h
        · exact hsp s h
        · rw [List.mem_singleton.mp h]
          exact goodSpan_of_cursor _ _ _ _ _ _ hs hcur hx hcy
      by_cases hv : y - lineGap < bb.y1 + descent
      · rw [if_pos hv]
        exact hgoods
      · rw [if_neg hv]
        push_neg at hv
        exact ⟨hgoods, hsx, hv, by
          by_cases hr : rest = [] <;> simp [hr]⟩
    · rw [if_neg hnl]
      dsimp only
      by_cases hov : bb.x2 ≤ x + hAdv (doc font.id) font.size ch
      · rw [if_pos hov]
        have hgood_cur : GoodSpan (doc font.id) font.size descent bb cur :=
          goodSpan_of_cursor _ _ _ _ _ _ hs hcur hx hcy
        by_cases hv : y - lineGap < bb.y1 + descent
        · rw [if_pos hv]
          intro s hsm
          rcases List.mem_append.mp hsm with h | h
          · exact hsp s h
          · rcases List.mem_cons.mp h with h2 | h2
            · rw [h2]; exact hgood_cur
            · rw [List.mem_singleton.mp h2]; exact hgood_cur
        · rw [if_neg hv]
          push_neg at hv
          refine ih (startX + wrapOffset + hAdv (doc font.id) font.size ch)
            (y - lineGap) _ _ ?_ ?_ ?_ hv hv
          · intro s hsm
            rcases List.mem_append.mp hsm with h | h
            · exact hsp s h
            · rw [List.mem_singleton.mp h]; exact hgood_cur
          · show startX + wrapOffset + advSum (doc font.id) font.size [ch] = _
            simp [advSum]
          · exact (hfit ch).1
      · rw [if_neg hov]
        push_neg at hov
        refine ih (x + hAdv (doc font.id) font.size ch) y _ _ hsp ?_ hov hy hcy
        show cur.coords.1 + advSum (doc font.id) font.size (cur.text ++ [ch]) = _
        rw [advSum_snoc]
        rw [← add_assoc, hcur]

/-- Invariant of the naive `'inputspans` loop: with a single-font queue, a
nonnegative size, per-character advances that fit on a fresh line, an
in-box cursor and a baseline above the bottom threshold, every span the
loop ever accumulates is good — for any fuel. -/
theorem naiveLoop_good (doc : ℕ → Face) (startX wrapOffset : ℚ) (bb : Rect)
    (font0 : SpanFont) (hs : 0 ≤ font0.size)
    (hfit : ∀ ch, startX + wrapOffset + hAdv (doc font0.id) font0.size ch < bb.x2 ∧
                  startX + hAdv (doc font0.id) font0.size ch < bb.x2) :
    ∀ fuel x y spans queue,
      (∀ c ∈ queue, c.2.2 = font0) →
      (∀ s ∈ spans,
        GoodSpan (doc font0.id) font0.size ((doc font0.id).descent font0.size) bb s) →
      x < bb.x2 → bb.y1 + (doc font0.id).descent font0.size ≤ y →
      ∀ s ∈ (naiveLoop doc startX wrapOffset bb fuel x y spans queue).spans,
        GoodSpan (doc font0.id) font0.size ((doc font0.id).descent font0.size) bb s := by
  intro fuel
  induction fuel with
  | zero =>
    intro x y spans queue _ hsp _ _ s hsm
    exact hsp s hsm
  | succ n ih =>
    intro x y spans queue hq hsp hx hy
    rcases queue with _ | ⟨⟨s0, colour, font⟩, rest⟩
    · intro s hsm
      exact hsp s hsm
    · have hfont : font = font0 := hq (s0, colour, font) (List.mem_cons_self _ _)
      subst hfont
      rw [naiveLoop]
      have hok := naiveChars_ok doc startX wrapOffset bb colour font
        ((doc font.id).descent font.size) ((doc font.id).line_height font.size)
        hs hfit (preprocess s0) x y ⟨[], font, colour, (x, y)⟩ spans hsp
        (by simp [advSum]) hx hy hy
      rcases hstep : naiveChars doc startX wrapOffset bb colour font
          ((doc font.id).descent font.size) ((doc font.id).line_height font.size)
          (preprocess s0) x y ⟨[], font, colour, (x, y)⟩ spans with
        ⟨x2, y2, spans2⟩ | ⟨x2, y2, spans2, ins⟩ | ⟨x2, y2, spans2, ins⟩
      · rw [hstep] at hok
        obtain ⟨hsp2, hx2, hy2⟩ := hok
        exact ih x2 y2 spans2 rest (fun c hc => hq c (List.mem_cons_of_mem _ hc))
          hsp2 hx2 hy2
      · rw [hstep] at hok
        obtain ⟨hsp2, hx2, hy2, hins⟩ := hok
        refine ih x2 y2 spans2 (ins ++ rest) ?_ hsp2 hx2 hy2
        intro c hc
        rcases List.mem_append.mp hc with h | h
        · exact hins c h
        · exact hq c (List.mem_cons_of_mem _ h)
      · rw [hstep] at hok
        exact hok

/-! ## Natural (token-aware) layout (src/layout/text.rs, `layout_text_natural`) -/

/-- `BreakPoint` (src/layout/text.rs lines 228–238): a rewind target for
the current line. -/
structure BP where
  spanIdx : ℕ
  charIdx : ℕ
  inputIdx : ℕ
  inputCharIdx : ℕ
deriving DecidableEq

/-- Truncate the text of the last span of a list to its first `k`
characters (the `spans.last_mut()` truncation of lines 411–414). -/
def truncLast : List SpanLayout → ℕ → List SpanLayout
  | [], _ => []
  | [s], k => [⟨s.text.take k, s.font, s.colour, s.coords⟩]
  | s :: s2 :: rest, k => s :: truncLast (s2 :: rest) k

/-- `spans.last().map(|s| s.text.chars().count()).unwrap_or(0)`. -/
def lastTextLen (spans : List SpanLayout) : ℕ :=
  match spans.getLast? with
  | some s => s.text.length
  | none => 0

/-- Number of leading whitespace-but-not-newline characters (the
`restart_ci` skip loop of lines 442–448). -/
def skipWsCount : List Char → ℕ
  | [] => 0
  | c :: rest => if c.isWhitespace ∧ c ≠ '\n' then skipWsCount rest + 1 else 0

/-- The `text.drain(..input_idx)` performed after the `'inputspans` loop
(src/layout/text.rs lines 516–519). -/
def finalDrain (queue : List Chunk) (idx : ℕ) : List Chunk :=
  if 0 < idx ∧ idx ≤ queue.length then queue.drop idx else queue

/-- Outcome of the natural `'chars` loop over one chunk. -/
inductive NatStep where
  | doneSpan (x y lineStartX : ℚ) (lb : Option BP) (spans : List SpanLayout)
  | vertExit (x y : ℚ) (spans : List SpanLayout) (queue2 : List Chunk) (idxAtExit : ℕ)
  | rewound (x y lineStartX : ℚ) (spans : List SpanLayout) (queue2 : List Chunk)
      (inputIdx2 : ℕ)

/-- The `'chars` loop of `layout_text_natural` (src/layout/text.rs lines
336–508).  `queue` is the current text queue (read for bp restarts and
exits), `inputIdx` the index of the chunk being processed, `spanChars` its
full preprocessed text; the loop walks the suffix starting at character
`ci`.  Faithful to the source, the break-point rewind (lines 404–464)
abandons `current_span` without pushing it. -/
def natChars (doc : ℕ → Face) (startX wrapOffset : ℚ) (bb : Rect)
    (colour : Colour) (font : SpanFont) (descent lineGap : ℚ)
    (queue : List Chunk) (inputIdx : ℕ) (spanChars : List Char) :
    List Char → ℕ → ℚ → ℚ → ℚ → Option BP → SpanLayout → List SpanLayout → NatStep
  | [], _, x, y, lsx, lb, cur, spans =>
    .doneSpan x y lsx lb (if cur.text = [] then spans else spans ++ [cur])
  | ch :: rest, ci, x, y, lsx, lb, cur, spans =>
    if ch = '\n' then
      let spans2 := if cur.text = [] then spans else spans ++ [cur]
      let x2 := startX
      let y2 := y - lineGap
      if y2 < bb.y1 + descent then
        .vertExit x2 y2 spans2 ((ch :: rest, colour, font) :: queue.drop (inputIdx + 1))
          inputIdx
      else
        natChars doc startX wrapOffset bb colour font descent lineGap queue inputIdx
          spanChars rest (ci + 1) x2 y2 x2 none ⟨[], font, colour, (x2, y2)⟩ spans2
    else
      let adv := hAdv (doc font.id) font.size ch
      if bb.x2 ≤ x + adv then
        match lb with
        | some bp =>
          let spans3 := truncLast (spans.take (bp.spanIdx + 1)) bp.charIdx
          let x2 := startX + wrapOffset
          let y2 := y - lineGap
          if y2 < bb.y1 + descent then
            let rem := spanChars.drop bp.inputCharIdx
            .vertExit x2 y2 spans3
              ((if rem = [] then [] else [(rem, colour, font)]) ++ queue.drop bp.inputIdx)
              inputIdx
          else
            let entry := queue.getD bp.inputIdx ([], colour, font)
            let restartChars := preprocess entry.1
            let rci := bp.inputCharIdx + skipWsCount (restartChars.drop bp.inputCharIdx)
            if rci < restartChars.length then
              .rewound x2 y2 x2 spans3
                (queue.set bp.inputIdx (restartChars.drop rci, entry.2.1, entry.2.2))
                bp.inputIdx
            else
              if bp.inputIdx + 1 < queue.length then
                .rewound x2 y2 x2 spans3 (queue.drop (bp.inputIdx + 1)) 0
              else
                .rewound x2 y2 x2 spans3 queue (bp.inputIdx + 1)
        | none =>
          let spans2 := spans ++ [cur]
          let x2 := startX + wrapOffset
          let y2 := y - lineGap
          if y2 < bb.y1 + descent then
            .vertExit x2 y2 spans2
              ((ch :: rest, colour, font) :: queue.drop (inputIdx + 1)) inputIdx
          else
            natChars doc startX wrapOffset bb colour font descent lineGap queue inputIdx
              spanChars rest (ci + 1) (x2 + adv) y2 x2 none
              ⟨[ch], font, colour, (x2, y2)⟩ spans2
      else
        let cur2 : SpanLayout := ⟨cur.text ++ [ch], font, colour, cur.coords⟩
        let lb2 := if ch.isWhitespace then
            some (BP.mk spans.length cur2.text.length inputIdx (ci + 1))
          else lb
        natChars doc startX wrapOffset bb colour font descent lineGap queue inputIdx
          spanChars rest (ci + 1) (x + adv) y lsx lb2 cur2 spans

/-- The `'inputspans` loop of `layout_text_natural` (src/layout/text.rs
lines 293–519), fuelled, including the span-boundary break point recorded
at the start of each chunk (lines 313–321) and the final
`text.drain(..input_idx)`. -/
def natLoop (doc : ℕ → Face) (startX wrapOffset : ℚ) (bb : Rect) :
    ℕ → ℚ → ℚ → ℚ → Option BP → ℕ → List SpanLayout → List Chunk → LayoutResult
  | 0, x, y, _, _, _, spans, queue => ⟨spans, queue, x, y, false⟩
  | fuel + 1, x, y, lsx, lb, inputIdx, spans, queue =>
    match queue.get? inputIdx with
    | none => ⟨spans, finalDrain queue inputIdx, x, y, true⟩
    | some (s, colour, font) =>
      let f := doc font.id
      let descent := f.descent font.size
      let lineGap := f.line_height font.size
      let spanChars := preprocess s
      let lb2 := if lsx < x ∧ spans ≠ [] then
          some (BP.mk (spans.length - 1) (lastTextLen spans) inputIdx 0)
        else lb
      match natChars doc startX wrapOffset bb colour font descent lineGap queue
          inputIdx spanChars spanChars 0 x y lsx lb2
          ⟨[], font, colour, (x, y)⟩ spans with
      | .doneSpan x2 y2 lsx2 lb3 spans2 =>
        natLoop doc startX wrapOffset bb fuel x2 y2 lsx2 lb3 (inputIdx + 1) spans2 queue
      | .vertExit x2 y2 spans2 queue2 idxAtExit =>
        ⟨spans2, finalDrain queue2 idxAtExit, x2, y2, true⟩
      | .rewound x2 y2 lsx2 spans2 queue2 inputIdx2 =>
        natLoop doc startX wrapOffset bb fuel x2 y2 lsx2 none inputIdx2 spans2 queue2

/-- `layout_text_natural` (src/layout/text.rs): token-aware layout with
one-line look-back. -/
def layout_text_natural (doc : ℕ → Face) (start : ℚ × ℚ) (queue : List Chunk)
    (wrapOffset : ℚ) (bb : Rect) (fuel : ℕ) : LayoutResult :=
  natLoop doc start.1 wrapOffset bb fuel start.1 start.2 start.1 none 0 [] queue

/-- Bounding box for the natural counterexample: width 85 (8.5 glyphs of
`testFace` at 16 pt), effectively no bottom. -/
def natBB : Rect := ⟨0, -1000, 85, 50⟩

unseal Rat.add Rat.sub Rat.mul Rat.inv Rat.ofScientific in
/-- Claim C4 (code_bug evaluation): laying out the single chunk
"aaa bbb ccc" (char width 10) in a box of width 85, the line overflows at
the first 'c' with a whitespace break point recorded inside the still
unpushed `current_span`; the rewind path never pushes that span, so the
entire first line "aaa bbb " is silently dropped and only "ccc" is emitted
on the second line — the break point's run is not truncated and kept, it is
lost. -/
theorem natural_breakpoint_rewind_drops_line :
    layout_text_natural doc0 (0, 10)
      [(['a', 'a', 'a', ' ', 'b', 'b', 'b', ' ', 'c', 'c', 'c'], 0, ⟨0, 16⟩)]
      0 natBB 10
      = ⟨[⟨['c', 'c', 'c'], ⟨0, 16⟩, 0, (0, -6)⟩], [], 30, -6, true⟩ := by
  decide

/-- Truncating the last span's text preserves the no-overflow property. -/
theorem truncLast_good (f : Face) (size descent : ℚ) (bb : Rect) (hs : 0 ≤ size) :
    ∀ spans k, (∀ s ∈ spans, GoodSpan f size descent bb s) →
      ∀ s ∈ truncLast spans k, GoodSpan f size descent bb s := by
  intro spans
  induction spans with
  | nil => intro k _ s hsm; exact absurd hsm (by simp [truncLast])
  | cons s0 rest ih =>
    intro k hsp s hsm
    rcases rest with _ | ⟨s1, rest2⟩
    · rw [truncLast] at hsm
      rw [List.mem_singleton.mp hsm]
      obtain ⟨hx0, hy0⟩ := hsp s0 (List.mem_singleton.mpr rfl)
      refine ⟨?_, hy0⟩
      have := width_of_text_take_le f size s0.text k hs
      calc s0.coords.1 + width_of_text (s0.text.take k) f size
          ≤ s0.coords.1 + width_of_text s0.text f size := by linarith
        _ < bb.x2 := hx0
    · rw [truncLast] at hsm
      rcases List.mem_cons.mp hsm with h | h
      · rw [h]; exact hsp s0 (List.mem_cons_self _ _)
      · exact ih k (fun t ht => hsp t (List.mem_cons_of_mem _ ht)) s h

/-- Outcome predicate for the natural `'chars` loop: produced spans are
good; on continuation the cursor is inside the box and, after a rewind,
the updated queue still carries a single font. -/
def NatStepOk (f : Face) (size descent : ℚ) (bb : Rect) (font : SpanFont) :
    NatStep → Prop
  | .doneSpan x y _ _ spans =>
    (∀ s ∈ spans, GoodSpan f size descent bb s) ∧ x < bb.x2 ∧ bb.y1 + descent ≤ y
  | .vertExit _ _ spans _ _ => ∀ s ∈ spans, GoodSpan f size descent bb s
  | .rewound x y _ spans queue2 _ =>
    (∀ s ∈ spans, GoodSpan f size descent bb s) ∧ x < bb.x2 ∧
    bb.y1 + descent ≤ y ∧ ∀ c ∈ queue2, c.2.2 = font

/-- Invariant of the natural `'chars` loop. -/
theorem natChars_ok (doc : ℕ → Face) (startX wrapOffset : ℚ) (bb : Rect)
    (colour : Colour) (font : SpanFont) (descent lineGap : ℚ)
    (queue : List Chunk) (inputIdx : ℕ) (spanChars : List Char)
    (hs : 0 ≤ font.size)
    (hfit : ∀ ch, startX + wrapOffset + hAdv (doc font.id) font.size ch < bb.x2 ∧
                  startX + hAdv (doc font.id) font.size ch < bb.x2)
    (hq : ∀ c ∈ queue, c.2.2 = font) :
    ∀ chars ci x y lsx lb cur spans,
      (∀ s ∈ spans, GoodSpan (doc font.id) font.size descent bb s) →
      cur.coords.1 + advSum (doc font.id) font.size cur.text = x →
      x < bb.x2 → bb.y1 + descent ≤ y → bb.y1 + descent ≤ cur.coords.2 →
      NatStepOk (doc font.id) font.size descent bb font
        (natChars doc startX wrapOffset bb colour font descent lineGap queue
          inputIdx spanChars chars ci x y lsx lb cur spans) := by
  have hsx : startX < bb.x2 := by
    have h1 := (hfit 'a').2
    have h2 := hAdv_nonneg (doc font.id) font.size 'a' hs
    linarith
  have hswx : startX + wrapOffset < bb.x2 := by
    have h1 := (hfit 'a').1
    have h2 := hAdv_nonneg (doc font.id) font.size 'a' hs
    linarith
  intro chars
  induction chars with
  | nil =>
    intro ci x y lsx lb cur spans hsp hcur hx hy hcy
    show NatStepOk (doc font.id) font.size descent bb font
      (NatStep.doneSpan x y lsx lb (if cur.text = [] then spans else spans ++ [cur]))
    refine ⟨?_, hx, hy⟩
    intro s hsm
    by_cases hct : cur.text = []
    · rw [if_pos hct] at hsm
      exact hsp s hsm
    · rw [if_neg hct] at hsm
      rcases List.mem_append.mp hsm with h | h
      · exact hsp s h
      · rw [List.mem_singleton.mp h]
        exact goodSpan_of_cursor _ _ _ _ _ _ hs hcur hx hcy
  | cons ch rest ih =>
    intro ci x y lsx lb cur spans hsp hcur hx hy hcy
    rw [natChars]
    have hspans2 : ∀ s ∈ (if cur.text = [] then spans else spans ++ [cur]),
        GoodSpan (doc font.id) font.size descent bb s := by
      by_cases hct : cur.text = []
      · simpa [hct] using hsp
      · simp only [hct, if_neg, if_false]
        intro s hsm
        rcases List.mem_append.mp hsm with h | h
        · exact hsp s h
        · rw [List.mem_singleton.mp h]
          exact goodSpan_of_cursor _ _ _ _ _ _ hs hcur hx hcy
    by_cases hnl : ch = '\n'
    · rw [if_pos hnl]
      dsimp only
      by_cases hv : y - lineGap < bb.y1 + descent
      · rw [if_pos hv]
        exact hspans2
      · rw [if_neg hv]
        push_neg at hv
        exact ih (ci + 1) startX (y - lineGap) startX none _ _ hspans2
          (by simp [advSum]) hsx hv hv
    · rw [if_neg hnl]
      dsimp only
      by_cases hov : bb.x2 ≤ x + hAdv (doc font.id) font.size ch
      · rw [if_pos hov]
        rcases lb with _ | bp
        · dsimp only
          have hgood_cur : GoodSpan (doc font.id) font.size descent bb cur :=
            goodSpan_of_cursor _ _ _ _ _ _ hs hcur hx hcy
          have hspans3 : ∀ s ∈ spans ++ [cur],
              GoodSpan (doc font.id) font.size descent bb s := by
            intro s hsm
            rcases List.mem_append.mp hsm with h | h
            · exact hsp s h
            · rw [List.mem_singleton.mp h]; exact hgood_cur
          by_cases hv : y - lineGap < bb.y1 + descent
          · rw [if_pos hv]
            exact hspans3
          · rw [if_neg hv]
            push_neg at hv
            exact ih (ci + 1) (startX + wrapOffset + hAdv (doc font.id) font.size ch)
              (y - lineGap) (startX + wrapOffset) none _ _ hspans3
              (by simp [advSum]) (hfit ch).1 hv hv
        · dsimp only
          have hspans3 : ∀ s ∈ truncLast (spans.take (bp.spanIdx + 1)) bp.charIdx,
              GoodSpan (doc font.id) font.size descent bb s :=
            truncLast_good _ _ _ _ hs _ _
              (fun s hsm => hsp s (List.take_subset _ _ hsm))
          by_cases hv : y - lineGap < bb.y1 + descent
          · rw [if_pos hv]
            exact hspans3
          · rw [if_neg hv]
            by_cases hrc : bp.inputCharIdx +
                skipWsCount ((preprocess (queue.getD bp.inputIdx ([], colour, font)).1).drop
                  bp.inputCharIdx)
                < (preprocess (queue.getD bp.inputIdx ([], colour, font)).1).length
            · rw [if_pos hrc]
              push_neg at hv
              refine ⟨hspans3, hswx, hv, ?_⟩
              intro c hc
              rcases List.mem_or_eq_of_mem_set hc with h | h
              · exact hq c h
              · rw [h]
                show (queue.getD bp.inputIdx ([], colour, font)).2.2 = font
                rcases hget : queue.get? bp.inputIdx with _ | entry
                · rw [List.getD_eq_getD_get?, hget]
                  rfl
                · rw [List.getD_eq_getD_get?, hget]
                  exact hq entry (List.get?_mem hget)
            · rw [if_neg hrc]
              push_neg at hv
              by_cases hlen : bp.inputIdx + 1 < queue.length
              · rw [if_pos hlen]
                exact ⟨hspans3, hswx, hv,
                  fun c hc => hq c (List.drop_subset _ _ hc)⟩
              · rw [if_neg hlen]
                exact ⟨hspans3, hswx, hv, hq⟩
      · rw [if_neg hov]
        push_neg at hov
        refine ih (ci + 1) (x + hAdv (doc font.id) font.size ch) y lsx _ _ _ hsp ?_ hov hy hcy
        show cur.coords.1 + advSum (doc font.id) font.size (cur.text ++ [ch]) = _
        rw [advSum_snoc, ← add_assoc, hcur]

/-- Invariant of the natural `'inputspans` loop: with a single-font queue,
nonnegative size, advances that fit on a fresh line, an in-box cursor and a
baseline above the bottom threshold, every accumulated span is good, for
any fuel. -/
theorem natLoop_good (doc : ℕ → Face) (startX wrapOffset : ℚ) (bb : Rect)
    (font0 : SpanFont) (hs : 0 ≤ font0.size)
    (hfit : ∀ ch, startX + wrapOffset + hAdv (doc font0.id) font0.size ch < bb.x2 ∧
                  startX + hAdv (doc font0.id) font0.size ch < bb.x2) :
    ∀ fuel x y lsx lb inputIdx spans queue,
      (∀ c ∈ queue, c.2.2 = font0) →
      (∀ s ∈ spans,
        GoodSpan (doc font0.id) font0.size ((doc font0.id).descent font0.size) bb s) →
      x < bb.x2 → bb.y1 + (doc font0.id).descent font0.size ≤ y →
      ∀ s ∈ (natLoop doc startX wrapOffset bb fuel x y lsx lb inputIdx spans queue).spans,
        GoodSpan (doc font0.id) font0.size ((doc font0.id).descent font0.size) bb s := by
  intro fuel
  induction fuel with
  | zero =>
    intro x y lsx lb inputIdx spans queue _ hsp _ _ s hsm
    exact hsp s hsm
  | succ n ih =>
    intro x y lsx lb inputIdx spans queue hq hsp hx hy
    rw [natLoop]
    rcases hget : queue.get? inputIdx with _ | ⟨s0, colour, font⟩
    · intro s hsm
      exact hsp s hsm
    · have hfont : font = font0 := hq (s0, colour, font) (List.get?_mem hget)
      subst hfont
      dsimp only
      have hok := natChars_ok doc startX wrapOffset bb colour font
        ((doc font.id).descent font.size) ((doc font.id).line_height font.size)
        queue inputIdx (preprocess s0) hs hfit hq (preprocess s0) 0 x y lsx
        (if lsx < x ∧ spans ≠ [] then
          some (BP.mk (spans.length - 1) (lastTextLen spans) inputIdx 0) else lb)
        ⟨[], font, colour, (x, y)⟩ spans hsp (by simp [advSum]) hx hy hy
      rcases hstep : natChars doc startX wrapOffset bb colour font
          ((doc font.id).descent font.size) ((doc font.id).line_height font.size)
          queue inputIdx (preprocess s0) (preprocess s0) 0 x y lsx
          (if lsx < x ∧ spans ≠ [] then
            some (BP.mk (spans.length - 1) (lastTextLen spans) inputIdx 0) else lb)
          ⟨[], font, colour, (x, y)⟩ spans with
        ⟨x2, y2, lsx2, lb3, spans2⟩ | ⟨x2, y2, spans2, queue2, idx2⟩
          | ⟨x2, y2, lsx2, spans2, queue2, idx2⟩
      · rw [hstep] at hok
        obtain ⟨hsp2, hx2, hy2⟩ := hok
        exact ih x2 y2 lsx2 lb3 (inputIdx + 1) spans2 queue hq hsp2 hx2 hy2
      · rw [hstep] at hok
        intro s hsm
        exact hok s hsm
      · rw [hstep] at hok
        obtain ⟨hsp2, hx2, hy2, hq2⟩ := hok
        exact ih x2 y2 lsx2 none idx2 spans2 queue2 hq2 hsp2 hx2 hy2

/-- Claim C5 (amended): for the naive and natural layouts, every run
emitted to the page satisfies `run.x + widthOfText(run.text) < box.right`
and `run.y ≥ box.bottom + descent` — provided all chunks share one font of
nonnegative size, every character advance fits on a fresh line
(`start.x + wrapOffset + advance < box.right` and
`start.x + advance < box.right`), and the start baseline is above
`box.bottom + descent`.  (The original unconditional claim fails, e.g. for
a start baseline below the box; see the counterexample.) -/
theorem no_overflow_invariant (doc : ℕ → Face) (start : ℚ × ℚ)
    (wrapOffset : ℚ) (bb : Rect) (font0 : SpanFont)
    (queue1 queue2 : List Chunk) (fuel1 fuel2 : ℕ)
    (hs : 0 ≤ font0.size)
    (hfit : ∀ ch, start.1 + wrapOffset + hAdv (doc font0.id) font0.size ch < bb.x2 ∧
                  start.1 + hAdv (doc font0.id) font0.size ch < bb.x2)
    (hq1 : ∀ c ∈ queue1, c.2.2 = font0) (hq2 : ∀ c ∈ queue2, c.2.2 = font0)
    (hy : bb.y1 + (doc font0.id).descent font0.size ≤ start.2) :
    (∀ s ∈ (layout_text_naive doc start queue1 wrapOffset bb fuel1).spans.filter
        (fun t => t.text ≠ []),
      s.coords.1 + width_of_text s.text (doc font0.id) font0.size < bb.x2 ∧
      bb.y1 + (doc font0.id).descent font0.size ≤ s.coords.2) ∧
    (∀ s ∈ (layout_text_natural doc start queue2 wrapOffset bb fuel2).spans.filter
        (fun t => t.text ≠ []),
      s.coords.1 + width_of_text s.text (doc font0.id) font0.size < bb.x2 ∧
      bb.y1 + (doc font0.id).descent font0.size ≤ s.coords.2) := by
  have hsx : start.1 < bb.x2 := by
    have h1 := (hfit 'a').2
    have h2 := hAdv_nonneg (doc font0.id) font0.size 'a' hs
    linarith
  constructor
  · intro s hsm
    exact naiveLoop_good doc start.1 wrapOffset bb font0 hs hfit fuel1 start.1 start.2
      [] queue1 hq1 (by simp) hsx hy s (List.mem_of_mem_filter hsm)
  · intro s hsm
    exact natLoop_good doc start.1 wrapOffset bb font0 hs hfit fuel2 start.1 start.2
      start.1 none 0 [] queue2 hq2 (by simp) hsx hy s (List.mem_of_mem_filter hsm)

/-- Every character of `testFace` has layout advance `size/1000 * 625`. -/
theorem hAdv_testFace (size : ℚ) (ch : Char) :
    hAdv testFace size ch = size / 1000 * 625 := by
  simp [hAdv, fallbackGid, testFace, scalingOf]

/-- Witness for the amended C5, on concrete naive and natural inputs in a
100-wide box with start `(0, 10)`. -/
theorem no_overflow_invariant_witness :
    ((0 : ℚ) ≤ (SpanFont.mk 0 16).size ∧
      (∀ ch, (0 : ℚ) + 0 + hAdv (doc0 (SpanFont.mk 0 16).id) (SpanFont.mk 0 16).size ch
          < naiveBB.x2 ∧
        (0 : ℚ) + hAdv (doc0 (SpanFont.mk 0 16).id) (SpanFont.mk 0 16).size ch
          < naiveBB.x2) ∧
      naiveBB.y1 + (doc0 (SpanFont.mk 0 16).id).descent (SpanFont.mk 0 16).size
        ≤ ((0 : ℚ), (10 : ℚ)).2) ∧
    ((∀ s ∈ (layout_text_naive doc0 (0, 10) [(['a', 'b'], 0, ⟨0, 16⟩)] 0
          naiveBB 5).spans.filter (fun t => t.text ≠ []),
        s.coords.1 + width_of_text s.text (doc0 (SpanFont.mk 0 16).id)
            (SpanFont.mk 0 16).size < naiveBB.x2 ∧
        naiveBB.y1 + (doc0 (SpanFont.mk 0 16).id).descent (SpanFont.mk 0 16).size
          ≤ s.coords.2) ∧
      (∀ s ∈ (layout_text_natural doc0 (0, 10) [(['c', 'd'], 0, ⟨0, 16⟩)] 0
          naiveBB 5).spans.filter (fun t => t.text ≠ []),
        s.coords.1 + width_of_text s.text (doc0 (SpanFont.mk 0 16).id)
            (SpanFont.mk 0 16).size < naiveBB.x2 ∧
        naiveBB.y1 + (doc0 (SpanFont.mk 0 16).id).descent (SpanFont.mk 0 16).size
          ≤ s.coords.2)) := by
  have hfit : ∀ ch, (0 : ℚ) + 0 + hAdv (doc0 (SpanFont.mk 0 16).id)
        (SpanFont.mk 0 16).size ch < naiveBB.x2 ∧
      (0 : ℚ) + hAdv (doc0 (SpanFont.mk 0 16).id) (SpanFont.mk 0 16).size ch
        < naiveBB.x2 := by
    intro ch
    have had : hAdv (doc0 (SpanFont.mk 0 16).id) (SpanFont.mk 0 16).size ch = 10 := by
      show hAdv testFace 16 ch = 10
      rw [hAdv_testFace]
      norm_num
    rw [had]
    constructor <;> (show _ < (100 : ℚ)) <;> norm_num
  have hy : naiveBB.y1 + (doc0 (SpanFont.mk 0 16).id).descent (SpanFont.mk 0 16).size
      ≤ ((0 : ℚ), (10 : ℚ)).2 := by
    show (0 : ℚ) + testFace.descent 16 ≤ 10
    norm_num [Face.descent, scalingOf, testFace]
  exact ⟨⟨by norm_num, hfit, hy⟩,
    no_overflow_invariant doc0 (0, 10) 0 naiveBB ⟨0, 16⟩
      [(['a', 'b'], 0, ⟨0, 16⟩)] [(['c', 'd'], 0, ⟨0, 16⟩)] 5 5
      (by norm_num) hfit (by simp) (by simp) hy⟩

end PdfGen
